import Mathlib

/-!
# Leave Management Ledger: a shallow embedding

This file embeds the core of the leave-management service
(`src/main.py`): the employee registry, the leave-history log, the
date validator and the four public operations
(`register_employee`, `apply_for_leave`, `cancel_leaves`,
`get_leave_histories`), and proves the testable properties stated for
them.

Python `datetime` values are modelled as integer numbers of seconds;
the external date library (`dateutil.parser.parse`, `strftime`) and
the clock (`datetime.today()`) are modelled by an explicit environment
`DateEnv` supplying a parse function, a formatter and the current
moment.  Fallible Python code (a raised exception) is modelled with
`Option`: `none` is an uncaught exception propagating to the caller.
-/

namespace LeaveMgmt

/-- Python `timedelta.days` of a difference of `Int`s:
floor division of the total seconds by 86400 (Python normalizes
`timedelta` so that `.days` is the floor). -/
def timedeltaDays (diff : Int) : Int := Int.fdiv diff 86400

/-- The external date machinery used by `src/main.py`:
`parse` is `dateutil.parser.parse(s, fuzzy=False)` (`none` models a
raised `ValueError`); `fmt` is `datetime.strftime("%Y-%m-%d")`;
`now` is `datetime.today()`; `parseErrText s` is `str(e)` for the
`ValueError` raised when parsing `s` fails. -/
structure DateEnv where
  parse : String → Option Int
  fmt : Int → String
  now : Int
  parseErrText : String → String

/-- `format_date` (main.py:50-55): parse the date text and re-format it
as canonical `YYYY-MM-DD`; a parse failure re-raises (`none`). -/
def format_date (env : DateEnv) (leave_date : String) : Option String :=
  (env.parse leave_date).map env.fmt

/-- `is_valid_leave_date` (main.py:58-66): `false` when parsing raises
`ValueError`; otherwise `true` iff the whole-day difference between the
parsed moment and `datetime.today()` is strictly positive. -/
def is_valid_leave_date (env : DateEnv) (leave_date_str : String) : Bool :=
  match env.parse leave_date_str with
  | none => false
  | some t => timedeltaDays (t - env.now) > 0

/-- An entry of the `employees` list: a dict with keys
`id`, `name`, `balance` (main.py:34-39). -/
structure Employee where
  id : String
  name : String
  balance : Int
deriving DecidableEq, Repr

/-- An entry of the `leave_histories` list: a dict with keys
`employee_id`, `purpose`, `leave_date` (main.py:41-47). -/
structure LeaveRecord where
  employee_id : String
  purpose : String
  leave_date : String
deriving DecidableEq, Repr

/-- The module-level mutable state of `src/main.py`: the `employees`
list and the `leave_histories` list. -/
structure LedgerState where
  employees : List Employee
  leave_histories : List LeaveRecord
deriving DecidableEq, Repr

/-- The seed `employees` list (main.py:34-39). -/
def seedEmployees : List Employee :=
  [⟨"0001", "Wale", 20⟩, ⟨"0002", "Seun", 20⟩,
   ⟨"0003", "Kayode", 20⟩, ⟨"0004", "Adeola", 20⟩]

/-- The seed `leave_histories` list (main.py:41-47). -/
def seedHistories : List LeaveRecord :=
  [⟨"0001", "sick", "2025-06-01"⟩, ⟨"0001", "vacation", "2025-06-05"⟩,
   ⟨"0001", "sick", "2025-06-10"⟩, ⟨"0001", "sick", "2025-06-16"⟩,
   ⟨"0002", "others", "2025-06-12"⟩]

/-- The initial module state at import time. -/
def seedState : LedgerState := ⟨seedEmployees, seedHistories⟩

/-- The values of the `LeaveType` `StrEnum` (main.py:12-17). -/
def leaveTypeValues : List String :=
  ["sick", "vacation", "maternity", "paternity", "others"]

/-- `add_leave_to_history` (main.py:69-76): append one record whose
date is `format_date(leave_date)`; `none` models the `ValueError`
propagating out of `format_date`. -/
def add_leave_to_history (env : DateEnv) (histories : List LeaveRecord)
    (employee_id purpose leave_date : String) : Option (List LeaveRecord) :=
  (format_date env leave_date).map
    (fun d => histories ++ [⟨employee_id, purpose, d⟩])

/-- Numeric value of an ASCII digit character. -/
def digitVal (c : Char) : Nat := c.toNat - 48

/-- Value of a digit string, most significant digit first. -/
def parseDigits (cs : List Char) : Nat :=
  cs.foldl (fun a c => a * 10 + digitVal c) 0

/-- Python `int(s)` on the identifier strings this program produces
(non-empty strings of ASCII digits); `none` models the `ValueError`
`int` raises on anything else. -/
def pyInt? (s : String) : Option Nat :=
  match s.data with
  | [] => none
  | cs => if cs.all Char.isDigit then some (parseDigits cs) else none

/-- Digits of a positive number, accumulator style (helper for `pyStr`). -/
def natDigitsAux : Nat → List Char → List Char
  | 0, acc => acc
  | n + 1, acc => natDigitsAux ((n + 1) / 10) (Char.ofNat (48 + (n + 1) % 10) :: acc)
decreasing_by exact Nat.div_lt_self (Nat.succ_pos n) (by omega)

/-- Python `str(n)` for a natural number. -/
def pyStr (n : Nat) : String :=
  if n = 0 then "0" else String.mk (natDigitsAux n [])

/-- Python `s.rjust(4, "0")`: left-pad with `'0'` to width 4. -/
def rjust4 (s : String) : String :=
  String.mk (List.replicate (4 - s.data.length) '0' ++ s.data)

/-- Python `repr` of a string (single-quoted), as used by f-string
interpolation of a list of strings. -/
def pyReprStr (s : String) : String := "\x27" ++ s ++ "\x27"

/-- Python `repr` of a list of strings, as produced by an f-string
interpolating `{leave_dates}`. -/
def pyReprList (xs : List String) : String :=
  "[" ++ String.intercalate ", " (xs.map pyReprStr) ++ "]"

/-- `register_employee` (main.py:88-107): read the last employee
(`employees[-1]`, IndexError on an empty list), parse its identifier
with `int` (ValueError on non-digits), append an employee with the
incremented zero-padded identifier and balance 20, and return the
success message.  `none` models an uncaught exception. -/
def register_employee (st : LedgerState) (name : String) :
    Option (LedgerState × String) :=
  match st.employees.getLast? with
  | none => none
  | some last_employee =>
    match pyInt? last_employee.id with
    | none => none
    | some n =>
      let new_id := rjust4 (pyStr (n + 1))
      let new_employee : Employee := ⟨new_id, name, 20⟩
      some ({st with employees := st.employees ++ [new_employee]},
        "Registration successful. Your employee ID is " ++ new_id ++
          " and you are entitled to a maximum of " ++
          toString new_employee.balance ++ " days leave.")

/-- Python `s.lower()`, character by character (the identifier and
purpose strings this program handles are ASCII, where Python's
`str.lower` is exactly per-character lower-casing). -/
def pyLower (s : String) : String := String.mk (s.data.map Char.toLower)

/-- The purpose normalization of `apply_for_leave` (main.py:138-139):
a case-insensitive match against the four named purposes keeps the
input text as supplied; anything else becomes `LeaveType.OTHERS.value`. -/
def normalizePurpose (purpose : String) : String :=
  if pyLower purpose ∈ ["sick", "vacation", "maternity", "paternity"]
    then purpose else "others"

/-- The batch invalid-date message of `apply_for_leave` (main.py:133-136). -/
def invalidDatesMsg (invalid_dates : List String) : String :=
  "Error: Invalid leave dates " ++ pyReprList invalid_dates ++
    ". Leave date should be a valid date and should not be a past date."

/-- The not-found message of `apply_for_leave` (main.py:152). -/
def notFoundMsg (employee_id : String) : String :=
  "Not Found: Employee with ID \x27" ++ employee_id ++ "\x27 not found."

/-- The insufficient-balance message of `apply_for_leave` (main.py:157-160). -/
def insufficientMsg (balance : Int) : String :=
  "Sorry, Insufficient leave balance. You have only " ++ toString balance ++
    " leave days left."

/-- The success message of `apply_for_leave` (main.py:170-173). -/
def applySuccessMsg (leave_dates : List String) (new_balance : Int) : String :=
  "Your leave application for " ++ pyReprList leave_dates ++
    " is successful. You now have " ++ toString new_balance ++ " leave days left."

/-- The canonical form `format_date` gives a date string whose parse
succeeds (defaulting arbitrarily otherwise). -/
def normDate (env : DateEnv) (d : String) : String :=
  (format_date env d).getD ""

/-- The `for leave_dt in leave_dates` loop of `apply_for_leave`
(main.py:163-164) with its surrounding `try`: append records one date
at a time; on the first date whose `format_date` raises, stop with the
appends made so far and report that date (the caught `ValueError`). -/
def applyLoop (env : DateEnv) (eid purpose : String) :
    List LeaveRecord → List String → List LeaveRecord × Option String
  | hists, [] => (hists, none)
  | hists, d :: ds =>
    match add_leave_to_history env hists eid purpose d with
    | none => (hists, some d)
    | some hists2 => applyLoop env eid purpose hists2 ds

/-- `apply_for_leave` (main.py:110-173): batch-validate the dates,
coerce the purpose, find the employee (first index match), check the
balance, then append one record per date and decrement the balance. -/
def apply_for_leave (env : DateEnv) (st : LedgerState)
    (employee_id : String) (leave_dates : List String) (purpose : String) :
    LedgerState × String :=
  let invalid_dates := leave_dates.filter (fun dt => !is_valid_leave_date env dt)
  if invalid_dates.length > 0 then
    (st, invalidDatesMsg invalid_dates)
  else
    let purpose := normalizePurpose purpose
    let matchesL := st.employees.enum.filter (fun p => decide (p.2.id = employee_id))
    match matchesL with
    | [] => (st, notFoundMsg employee_id)
    | (idx, employee) :: _ =>
      let leave_count := leave_dates.length
      if (leave_count : Int) > employee.balance then
        (st, insufficientMsg employee.balance)
      else
        match applyLoop env employee.id purpose st.leave_histories leave_dates with
        | (hists2, some bad) =>
          ({st with leave_histories := hists2}, "Error: " ++ env.parseErrText bad)
        | (hists2, none) =>
          let new_balance := employee.balance - leave_count
          ({employees := st.employees.set idx {employee with balance := new_balance},
            leave_histories := hists2},
            applySuccessMsg leave_dates new_balance)

/-- Python `list.remove(x)`: delete the first element equal to `x`;
`none` models the `ValueError` raised when no element matches. -/
def pyRemoveFirst? : List LeaveRecord → LeaveRecord → Option (List LeaveRecord)
  | [], _ => none
  | h :: t, r => if h = r then some t else (pyRemoveFirst? t r).map (h :: ·)

/-- The `for history in found_histories: leave_histories.remove(history)`
loop of `cancel_leaves` (main.py:207-208). -/
def pyRemoveEach : List LeaveRecord → List LeaveRecord → Option (List LeaveRecord)
  | l, [] => some l
  | l, r :: rs =>
    match pyRemoveFirst? l r with
    | none => none
    | some l2 => pyRemoveEach l2 rs

/-- The invalid-date message of `cancel_leaves` (main.py:192-196),
naming only the first offending original date (Python concatenates
the literal pieces with no space before "Dates"). -/
def cancelInvalidMsg (first_invalid : String) : String :=
  "An invalid date is found " ++ first_invalid ++
    "Dates can only be a valid date and must be a future date."

/-- The no-matching-records message of `cancel_leaves` (main.py:206). -/
def noLeaveMsg : String :=
  "No leave taken by the employee for the date(s) given."

/-- The success message of `cancel_leaves` (main.py:209). -/
def cancelSuccessMsg : String := "Leaves approved for \"\""

/-- `cancel_leaves` (main.py:176-209): normalize every date with
`format_date` (a parse failure propagates uncaught — `none`), check
every normalized date is a future date (reporting only the first
offending original date), collect the records matching
`employee_id.lower()` and the normalized dates, and remove them. -/
def cancel_leaves (env : DateEnv) (st : LedgerState)
    (employee_id : String) (leave_dates : List String) :
    Option (LedgerState × String) :=
  match leave_dates.mapM (format_date env) with
  | none => none
  | some formatted_dates =>
    let valid_dates := formatted_dates.map (is_valid_leave_date env)
    if false ∈ valid_dates then
      some (st, cancelInvalidMsg
        (leave_dates.getD (valid_dates.findIdx (fun b => !b)) ""))
    else
      let found_histories := st.leave_histories.filter
        (fun h => decide (h.employee_id = pyLower employee_id ∧
          h.leave_date ∈ formatted_dates))
      if found_histories.length = 0 then
        some (st, noLeaveMsg)
      else
        match pyRemoveEach st.leave_histories found_histories with
        | none => none
        | some hists2 =>
          some ({st with leave_histories := hists2}, cancelSuccessMsg)

/-- Python `s.capitalize()`: first character upper-cased, the rest
lower-cased. -/
def pyCapitalize (s : String) : String :=
  match s.data with
  | [] => ""
  | c :: rest => String.mk (c.toUpper :: rest.map Char.toLower)

/-- Pydantic validation `LeaveHistory(**history)` (main.py:26-29, 238):
the `purpose` field must be a `LeaveType` value; `none` models the
`ValidationError` raised otherwise. -/
def leaveHistoryModel? (r : LeaveRecord) : Option LeaveRecord :=
  if r.purpose ∈ leaveTypeValues then some r else none

/-- `format_leave_history` (main.py:79-85), after `dedent`. -/
def format_leave_history (r : LeaveRecord) : String :=
  "\nDate: " ++ r.leave_date ++ "\nPurpose: " ++ pyCapitalize r.purpose ++ "\n"

/-- `get_leave_histories` (main.py:212-249): filter the employees and
histories by the identifier, then build the markdown view from
`found_employee[0]` — which raises IndexError (`none`) when no
employee matches — and the pydantic-validated records. -/
def get_leave_histories (st : LedgerState) (employee_id : String) :
    Option String :=
  let found_employee := st.employees.filter (fun e => decide (e.id = employee_id))
  let employee_histories := st.leave_histories.filter
    (fun h => decide (h.employee_id = employee_id))
  match found_employee with
  | [] => none
  | e :: _ =>
    match employee_histories.mapM leaveHistoryModel? with
    | none => none
    | some hs =>
      let header := "\n### Leave History\n[color blue] **Employee Name:** *" ++
        e.name ++ " [/color]\n**Leave Balance:** *" ++ toString e.balance ++ "\n"
      let formatted := String.intercalate "\n---\n" (hs.map format_leave_history)
      some (header ++ "\n\n---\n" ++ formatted)

/-- A concrete date environment for concrete runs: "today"
(`datetime.today()`) is second 0 of the time line, `"2099-01-01"` and
`"2099-01-02"` parse to ten and eleven days ahead, `"2020-01-01"`
parses to five days in the past, and every other string raises
`ValueError` in `dateutil.parser.parse`. -/
def demoEnv : DateEnv where
  parse := fun s =>
    if s = "2099-01-01" then some 864000
    else if s = "2099-01-02" then some 950400
    else if s = "2020-01-01" then some (-432000)
    else if s = "2020-01-02" then some (-345600)
    else none
  fmt := fun t =>
    if t = 864000 then "2099-01-01"
    else if t = 950400 then "2099-01-02"
    else if t = -432000 then "2020-01-01"
    else if t = -345600 then "2020-01-02"
    else ""
  now := 0
  parseErrText := fun s => "Unknown string format: " ++ s

/-- Number of Leave History Log records carrying a given employee
identifier. -/
def countFor (hists : List LeaveRecord) (eid : String) : Int :=
  ((hists.filter (fun h => decide (h.employee_id = eid))).length : Int)

/-- Number of log records of a state for a given employee. -/
def historyCount (st : LedgerState) (eid : String) : Int :=
  countFor st.leave_histories eid

/-- The balance/record-count synchronization property of the spec:
every employee's balance equals the entitlement (20) minus the number
of that employee's log records. -/
def BalanceSynced (st : LedgerState) : Prop :=
  ∀ e ∈ st.employees, e.balance = 20 - historyCount st e.id

instance (st : LedgerState) : Decidable (BalanceSynced st) :=
  inferInstanceAs (Decidable (∀ e ∈ st.employees, e.balance = 20 - historyCount st e.id))

/-- A purpose string the Ledger may store: its lower-casing is one of
the four named purposes (the original casing is kept), or it is
exactly "others". -/
def purposeOk (p : String) : Prop :=
  pyLower p ∈ ["sick", "vacation", "maternity", "paternity"] ∨ p = "others"

instance (p : String) : Decidable (purposeOk p) :=
  inferInstanceAs (Decidable
    (pyLower p ∈ ["sick", "vacation", "maternity", "paternity"] ∨ p = "others"))

/-- Python `int` value of an employee identifier (0 if unparseable). -/
def idNum (e : Employee) : Nat := (pyInt? e.id).getD 0

/-- The numerically largest identifier present in the registry. -/
def maxIdNum (st : LedgerState) : Nat := (st.employees.map idNum).foldr max 0

/-- A one-employee state with balance 1 (the spec's insufficient-balance
scenario). -/
def lowState : LedgerState := ⟨[⟨"0001", "Wale", 1⟩], []⟩

/-- A one-employee state with balance 0 and one pre-existing future
leave record. -/
def cState : LedgerState :=
  ⟨[⟨"0001", "Wale", 0⟩], [⟨"0001", "sick", "2099-01-01"⟩]⟩

/-- States reachable from the seed data through the mutating public
operations (each call may see a different date environment: the clock
advances between calls). -/
inductive Reachable : LedgerState → Prop
  | seed : Reachable seedState
  | register {st st2 : LedgerState} {name msg : String} :
      Reachable st → register_employee st name = some (st2, msg) → Reachable st2
  | applyLeave {st : LedgerState} (env : DateEnv) (employee_id : String)
      (leave_dates : List String) (purpose : String) :
      Reachable st →
      Reachable (apply_for_leave env st employee_id leave_dates purpose).1
  | cancel {st st2 : LedgerState} (env : DateEnv) {employee_id : String}
      {leave_dates : List String} {msg : String} :
      Reachable st → cancel_leaves env st employee_id leave_dates = some (st2, msg) →
      Reachable st2

/-- The registry is non-empty and its identifiers are numeric and
strictly increasing along the list (so the last one is the maximum,
and identifiers never repeat). -/
def RegistryInv (st : LedgerState) : Prop :=
  ∃ ns : List Nat, ns ≠ [] ∧
    st.employees.map (fun e => pyInt? e.id) = ns.map some ∧
    List.Chain' (· < ·) ns

/-! ## Helper lemmas -/

/-- The whole-day difference is positive exactly when the moment is at
least one full day ahead. -/
theorem timedeltaDays_pos_iff (d : Int) : 0 < timedeltaDays d ↔ 86400 ≤ d := by
  unfold timedeltaDays
  rw [Int.fdiv_eq_ediv _ (by norm_num)]
  omega

/-- A date judged valid parses, to a moment at least a day ahead. -/
theorem is_valid_parse_some {env : DateEnv} {s : String}
    (h : is_valid_leave_date env s = true) :
    ∃ t, env.parse s = some t ∧ 0 < timedeltaDays (t - env.now) := by
  unfold is_valid_leave_date at h
  cases hp : env.parse s with
  | none => rw [hp] at h; cases h
  | some t =>
    rw [hp] at h
    exact ⟨t, rfl, by simpa using h⟩

theorem normDate_eq {env : DateEnv} {s : String} {t : Int}
    (h : env.parse s = some t) : normDate env s = env.fmt t := by
  simp [normDate, format_date, h]

/-- When every date parses, the append loop of `apply_for_leave`
appends exactly one normalized record per date, in order, and reports
no error. -/
theorem applyLoop_all_parse {env : DateEnv} {eid purpose : String} :
    ∀ (dates : List String) (hists : List LeaveRecord),
      (∀ d ∈ dates, (env.parse d).isSome) →
      applyLoop env eid purpose hists dates =
        (hists ++ dates.map (fun d => ⟨eid, purpose, normDate env d⟩), none) := by
  intro dates
  induction dates with
  | nil => intro hists _; simp [applyLoop]
  | cons d ds ih =>
    intro hists hall
    obtain ⟨t, ht⟩ := Option.isSome_iff_exists.mp (hall d (by simp))
    have hadd : add_leave_to_history env hists eid purpose d =
        some (hists ++ [⟨eid, purpose, normDate env d⟩]) := by
      simp [add_leave_to_history, format_date, ht, normDate_eq ht]
    simp only [applyLoop, hadd]
    rw [ih _ (fun x hx => hall x (by simp [hx]))]
    simp

/-- Whatever happens inside the append loop, the log only grows, by
records carrying the given employee identifier and purpose. -/
theorem applyLoop_shape {env : DateEnv} {eid purpose : String} :
    ∀ (dates : List String) (hists : List LeaveRecord),
      ∃ newRecs, (applyLoop env eid purpose hists dates).1 = hists ++ newRecs ∧
        ∀ r ∈ newRecs, r.employee_id = eid ∧ r.purpose = purpose := by
  intro dates
  induction dates with
  | nil => intro hists; exact ⟨[], by simp [applyLoop], by simp⟩
  | cons d ds ih =>
    intro hists
    rw [applyLoop]
    cases hadd : add_leave_to_history env hists eid purpose d with
    | none => exact ⟨[], by simp, by simp⟩
    | some hists2 =>
      obtain ⟨fd, hfd, hh2⟩ : ∃ fd, format_date env d = some fd ∧
          hists2 = hists ++ [⟨eid, purpose, fd⟩] := by
        unfold add_leave_to_history at hadd
        cases hf : format_date env d with
        | none => rw [hf] at hadd; cases hadd
        | some fd =>
          rw [hf] at hadd
          exact ⟨fd, rfl, by simpa using hadd.symm⟩
      obtain ⟨newRecs, hshape, hprops⟩ := ih hists2
      refine ⟨⟨eid, purpose, fd⟩ :: newRecs, ?_, ?_⟩
      · rw [hshape, hh2]; simp
      · intro r hr
        rcases List.mem_cons.mp hr with h | h
        · subst h; exact ⟨rfl, rfl⟩
        · exact hprops r h

/-- `list.remove` of an element absent from the list raises. -/
theorem pyRemoveFirst?_cons_of_ne {x r : LeaveRecord} {t : List LeaveRecord}
    (h : ¬x = r) : pyRemoveFirst? (x :: t) r = (pyRemoveFirst? t r).map (x :: ·) := by
  simp [pyRemoveFirst?, h]

/-- Removing a batch of records all satisfying `p` walks past a head
that does not satisfy `p`. -/
theorem pyRemoveEach_cons_skip {x : LeaveRecord} (p : LeaveRecord → Bool)
    (hx : p x = false) :
    ∀ (rs t : List LeaveRecord), (∀ r ∈ rs, p r = true) →
      pyRemoveEach (x :: t) rs = (pyRemoveEach t rs).map (x :: ·) := by
  intro rs
  induction rs with
  | nil => intro t _; simp [pyRemoveEach]
  | cons r rs ih =>
    intro t hall
    have hr : p r = true := hall r (by simp)
    have hxr : ¬x = r := by
      intro he; rw [he, hr] at hx; cases hx
    cases hrem : pyRemoveFirst? t r with
    | none =>
      simp [pyRemoveEach, pyRemoveFirst?_cons_of_ne hxr, hrem]
    | some t2 =>
      simp [pyRemoveEach, pyRemoveFirst?_cons_of_ne hxr, hrem,
        ih t2 (fun q hq => hall q (by simp [hq]))]

/-- `cancel_leaves`' removal loop deletes exactly the matching
records: removing, one by one, the sublist of records satisfying `p`
succeeds and leaves the sublist of records not satisfying `p`. -/
theorem pyRemoveEach_filter (p : LeaveRecord → Bool) :
    ∀ l : List LeaveRecord,
      pyRemoveEach l (l.filter p) = some (l.filter (fun x => !p x)) := by
  intro l
  induction l with
  | nil => simp [pyRemoveEach]
  | cons x t ih =>
    cases hx : p x with
    | true =>
      rw [List.filter_cons_of_pos hx]
      have h1 : pyRemoveFirst? (x :: t) x = some t := by simp [pyRemoveFirst?]
      simp [pyRemoveEach, h1, ih, List.filter_cons, hx]
    | false =>
      rw [List.filter_cons_of_neg (by simp [hx])]
      rw [pyRemoveEach_cons_skip p hx _ t (fun r hr => (List.mem_filter.mp hr).2)]
      rw [ih]
      simp [List.filter_cons, hx]

/-- Writing back the element already at a position leaves a list
unchanged. -/
theorem set_get_self {α : Type} (l : List α) :
    ∀ (i : Nat) (h : i < l.length), l.set i (l.get ⟨i, h⟩) = l := by
  induction l with
  | nil => intro i h; simp at h
  | cons a t ih =>
    intro i h
    cases i with
    | zero => rfl
    | succ j =>
      have hj : j < t.length := by simpa using h
      show a :: t.set j ((a :: t).get ⟨j + 1, h⟩) = a :: t
      have hg : (a :: t).get ⟨j + 1, h⟩ = t.get ⟨j, hj⟩ := rfl
      rw [hg, ih j hj]

/-- The head of the `matches` list built by `apply_for_leave` is an
actual entry of the registry carrying the identifier searched for. -/
theorem matches_head_spec {emps : List Employee} {eid : String}
    {idx : Nat} {employee : Employee}
    (h : (emps.enum.filter (fun p => decide (p.2.id = eid))).head? =
      some (idx, employee)) :
    employee.id = eid ∧ emps[idx]? = some employee := by
  have hmem : (idx, employee) ∈ emps.enum.filter (fun p => decide (p.2.id = eid)) :=
    List.mem_of_mem_head? h
  have h2 := List.mem_filter.mp hmem
  refine ⟨by simpa using h2.2, ?_⟩
  simpa using List.mk_mem_enum_iff_getElem?.mp h2.1

/-- `apply_for_leave`, batch-validation failure branch: some supplied
date is invalid, so the state is untouched and the message lists every
invalid date. -/
theorem apply_for_leave_invalid {env : DateEnv} {st : LedgerState}
    {employee_id : String} {leave_dates : List String} {purpose : String}
    (h : leave_dates.filter (fun dt => !is_valid_leave_date env dt) ≠ []) :
    apply_for_leave env st employee_id leave_dates purpose =
      (st, invalidDatesMsg
        (leave_dates.filter (fun dt => !is_valid_leave_date env dt))) := by
  unfold apply_for_leave
  have hlen : (leave_dates.filter (fun dt => !is_valid_leave_date env dt)).length > 0 :=
    List.length_pos.mpr h
  simp only [if_pos hlen]

/-- `apply_for_leave`, insufficient-balance branch: all dates valid,
the employee exists, but more dates are requested than the balance
allows; the state is untouched and the message reports the balance. -/
theorem apply_for_leave_insufficient {env : DateEnv} {st : LedgerState}
    {employee_id : String} {leave_dates : List String} {purpose : String}
    {idx : Nat} {employee : Employee}
    (hvalid : ∀ d ∈ leave_dates, is_valid_leave_date env d = true)
    (hmatch : (st.employees.enum.filter
        (fun p => decide (p.2.id = employee_id))).head? = some (idx, employee))
    (hbal : (leave_dates.length : Int) > employee.balance) :
    apply_for_leave env st employee_id leave_dates purpose =
      (st, insufficientMsg employee.balance) := by
  have hinv : leave_dates.filter (fun dt => !is_valid_leave_date env dt) = [] :=
    List.filter_eq_nil_iff.mpr (fun d hd => by simp [hvalid d hd])
  cases hml : st.employees.enum.filter (fun p => decide (p.2.id = employee_id)) with
  | nil => rw [hml] at hmatch; cases hmatch
  | cons hd tl =>
    rw [hml] at hmatch
    have hhd : hd = (idx, employee) := by simpa using hmatch
    subst hhd
    unfold apply_for_leave
    simp only [hinv, hml, List.length_nil, gt_iff_lt, Nat.lt_irrefl, if_false,
      if_pos hbal]

/-- `apply_for_leave`, success branch: all dates valid, the employee
exists, the balance suffices.  One normalized record is appended per
date, in order; the balance drops by the number of dates; the message
reports the new balance. -/
theorem apply_for_leave_success {env : DateEnv} {st : LedgerState}
    {employee_id : String} {leave_dates : List String} {purpose : String}
    {idx : Nat} {employee : Employee}
    (hvalid : ∀ d ∈ leave_dates, is_valid_leave_date env d = true)
    (hmatch : (st.employees.enum.filter
        (fun p => decide (p.2.id = employee_id))).head? = some (idx, employee))
    (hbal : (leave_dates.length : Int) ≤ employee.balance) :
    apply_for_leave env st employee_id leave_dates purpose =
      (⟨st.employees.set idx
          {employee with balance := employee.balance - leave_dates.length},
        st.leave_histories ++ leave_dates.map
          (fun d => ⟨employee.id, normalizePurpose purpose, normDate env d⟩)⟩,
        applySuccessMsg leave_dates (employee.balance - leave_dates.length)) := by
  have hinv : leave_dates.filter (fun dt => !is_valid_leave_date env dt) = [] :=
    List.filter_eq_nil_iff.mpr (fun d hd => by simp [hvalid d hd])
  have hparse : ∀ d ∈ leave_dates, (env.parse d).isSome := by
    intro d hd
    obtain ⟨t, ht, _⟩ := is_valid_parse_some (hvalid d hd)
    simp [ht]
  cases hml : st.employees.enum.filter (fun p => decide (p.2.id = employee_id)) with
  | nil => rw [hml] at hmatch; cases hmatch
  | cons hd tl =>
    rw [hml] at hmatch
    have hhd : hd = (idx, employee) := by simpa using hmatch
    subst hhd
    unfold apply_for_leave
    simp only [hinv, hml, List.length_nil, gt_iff_lt, Nat.lt_irrefl, if_false,
      if_neg (by omega : ¬((leave_dates.length : Int) > employee.balance))]
    rw [applyLoop_all_parse leave_dates st.leave_histories hparse]

/-- `apply_for_leave`, not-found branch: all dates valid but no
employee matches; the state is untouched. -/
theorem apply_for_leave_not_found {env : DateEnv} {st : LedgerState}
    {employee_id : String} {leave_dates : List String} {purpose : String}
    (hvalid : leave_dates.filter (fun dt => !is_valid_leave_date env dt) = [])
    (hnone : st.employees.enum.filter (fun p => decide (p.2.id = employee_id)) = []) :
    apply_for_leave env st employee_id leave_dates purpose =
      (st, notFoundMsg employee_id) := by
  unfold apply_for_leave
  simp only [hvalid, hnone, List.length_nil, gt_iff_lt, Nat.lt_irrefl, if_false]

/-- Exhaustive description of `apply_for_leave`: either the state is
untouched (failed validation, unknown employee, or insufficient
balance), or the call succeeds as described by
`apply_for_leave_success`.  The catch-`ValueError` branch of the
append loop is unreachable: every date that passed
`is_valid_leave_date` parses, so `format_date` cannot raise. -/
theorem apply_for_leave_cases (env : DateEnv) (st : LedgerState)
    (employee_id : String) (leave_dates : List String) (purpose : String) :
    (apply_for_leave env st employee_id leave_dates purpose).1 = st ∨
    ∃ idx employee,
      (st.employees.enum.filter
        (fun p => decide (p.2.id = employee_id))).head? = some (idx, employee) ∧
      (leave_dates.length : Int) ≤ employee.balance ∧
      (∀ d ∈ leave_dates, is_valid_leave_date env d = true) ∧
      apply_for_leave env st employee_id leave_dates purpose =
        (⟨st.employees.set idx
            {employee with balance := employee.balance - leave_dates.length},
          st.leave_histories ++ leave_dates.map
            (fun d => ⟨employee.id, normalizePurpose purpose, normDate env d⟩)⟩,
          applySuccessMsg leave_dates (employee.balance - leave_dates.length)) := by
  by_cases hinv : leave_dates.filter (fun dt => !is_valid_leave_date env dt) = []
  · have hvalid : ∀ d ∈ leave_dates, is_valid_leave_date env d = true := by
      intro d hd
      have := List.filter_eq_nil_iff.mp hinv d hd
      simpa using this
    cases hml : st.employees.enum.filter (fun p => decide (p.2.id = employee_id)) with
    | nil => left; rw [apply_for_leave_not_found hinv hml]
    | cons hd tl =>
      obtain ⟨idx, employee⟩ := hd
      have hmatch : (st.employees.enum.filter
          (fun p => decide (p.2.id = employee_id))).head? = some (idx, employee) := by
        rw [hml]; rfl
      by_cases hbal : (leave_dates.length : Int) > employee.balance
      · left; rw [apply_for_leave_insufficient hvalid hmatch hbal]
      · right
        exact ⟨idx, employee, rfl, by omega, hvalid,
          apply_for_leave_success hvalid hmatch (by omega)⟩
  · left; rw [apply_for_leave_invalid hinv]

/-- When every date parses, the cancellation-side normalization
succeeds and produces the list of canonical forms. -/
theorem mapM_format_of_parse {env : DateEnv} :
    ∀ {dates : List String}, (∀ d ∈ dates, (env.parse d).isSome) →
      dates.mapM (format_date env) = some (dates.map (normDate env)) := by
  intro dates
  induction dates with
  | nil => intro _; rfl
  | cons d ds ih =>
    intro hall
    obtain ⟨t, ht⟩ := Option.isSome_iff_exists.mp (hall d (by simp))
    have hfd : format_date env d = some (normDate env d) := by
      simp [format_date, ht, normDate_eq ht]
    rw [List.mapM_cons, hfd, ih (fun x hx => hall x (by simp [hx]))]
    rfl

/-- `cancel_leaves`, parse-fault branch: a date that `format_date`
cannot parse propagates the raw `ValueError` to the caller. -/
theorem cancel_leaves_parse_fault {env : DateEnv} {st : LedgerState}
    {employee_id : String} {leave_dates : List String}
    (h : leave_dates.mapM (format_date env) = none) :
    cancel_leaves env st employee_id leave_dates = none := by
  unfold cancel_leaves
  rw [h]

/-- `cancel_leaves`, invalid-date branch: every date parses but some
normalized date is not a future date; the state is untouched and the
message names only the first offending original date. -/
theorem cancel_leaves_first_invalid {env : DateEnv} {st : LedgerState}
    {employee_id : String} {leave_dates : List String} {formatted : List String}
    (hfmt : leave_dates.mapM (format_date env) = some formatted)
    (hinv : false ∈ formatted.map (is_valid_leave_date env)) :
    cancel_leaves env st employee_id leave_dates =
      some (st, cancelInvalidMsg (leave_dates.getD
        ((formatted.map (is_valid_leave_date env)).findIdx (fun b => !b)) "")) := by
  unfold cancel_leaves
  rw [hfmt]
  simp only [if_pos hinv]

/-- `cancel_leaves` never touches the employee registry. -/
theorem cancel_employees_unchanged {env : DateEnv} {st st2 : LedgerState}
    {employee_id : String} {leave_dates : List String} {msg : String}
    (h : cancel_leaves env st employee_id leave_dates = some (st2, msg)) :
    st2.employees = st.employees := by
  unfold cancel_leaves at h
  split at h
  · cases h
  · simp only at h
    split at h
    · simp only [Option.some.injEq, Prod.mk.injEq] at h
      rw [← h.1]
    · split at h
      · simp only [Option.some.injEq, Prod.mk.injEq] at h
        rw [← h.1]
      · split at h
        · cases h
        · simp only [Option.some.injEq, Prod.mk.injEq] at h
          rw [← h.1]

/-! ## Digit-string arithmetic for identifiers -/

theorem natDigitsAux_eq_append : ∀ (n : Nat) (acc : List Char),
    natDigitsAux n acc = natDigitsAux n [] ++ acc := by
  intro n
  induction n using Nat.strong_induction_on with
  | _ n ih =>
    intro acc
    match n with
    | 0 => simp [natDigitsAux]
    | m + 1 =>
      have hlt : (m + 1) / 10 < m + 1 := Nat.div_lt_self (Nat.succ_pos m) (by omega)
      rw [natDigitsAux, natDigitsAux,
        ih ((m + 1) / 10) hlt (Char.ofNat (48 + (m + 1) % 10) :: acc),
        ih ((m + 1) / 10) hlt [Char.ofNat (48 + (m + 1) % 10)]]
      simp

theorem digit_char_isDigit {m : Nat} (h : m < 10) :
    (Char.ofNat (48 + m)).isDigit = true := by
  interval_cases m <;> decide

theorem digitVal_digit_char {m : Nat} (h : m < 10) :
    digitVal (Char.ofNat (48 + m)) = m := by
  interval_cases m <;> decide

theorem parseDigits_append (cs ds : List Char) :
    parseDigits (cs ++ ds) =
      ds.foldl (fun a c => a * 10 + digitVal c) (parseDigits cs) := by
  simp [parseDigits, List.foldl_append]

theorem natDigitsAux_spec : ∀ n : Nat, 0 < n →
    parseDigits (natDigitsAux n []) = n ∧
    (∀ c ∈ natDigitsAux n [], c.isDigit) ∧ natDigitsAux n [] ≠ [] := by
  intro n
  induction n using Nat.strong_induction_on with
  | _ n ih =>
    intro hpos
    match n, hpos with
    | m + 1, _ =>
      have hd : (Char.ofNat (48 + (m + 1) % 10)).isDigit := by
        exact digit_char_isDigit (Nat.mod_lt _ (by omega))
      have hdv : digitVal (Char.ofNat (48 + (m + 1) % 10)) = (m + 1) % 10 :=
        digitVal_digit_char (Nat.mod_lt _ (by omega))
      rw [natDigitsAux, natDigitsAux_eq_append]
      by_cases h10 : (m + 1) / 10 = 0
      · rw [h10]
        refine ⟨?_, ?_, by simp⟩
        · have hsmall : m + 1 < 10 := by omega
          simp [natDigitsAux, parseDigits, hdv]
          omega
        · intro c hc
          simp [natDigitsAux] at hc
          rw [hc]; exact hd
      · have hlt : (m + 1) / 10 < m + 1 := Nat.div_lt_self (Nat.succ_pos m) (by omega)
        obtain ⟨hparse, hdig, hne⟩ := ih _ hlt (Nat.pos_of_ne_zero h10)
        refine ⟨?_, ?_, by simp [hne]⟩
        · rw [parseDigits_append, hparse]
          simp [hdv]
          omega
        · intro c hc
          rcases List.mem_append.mp hc with h | h
          · exact hdig c h
          · simp at h; rw [h]; exact hd

theorem pyStr_spec (n : Nat) : (pyStr n).data ≠ [] ∧
    (∀ c ∈ (pyStr n).data, c.isDigit) ∧ parseDigits (pyStr n).data = n := by
  unfold pyStr
  by_cases h0 : n = 0
  · subst h0; refine ⟨by decide, by decide, by decide⟩
  · rw [if_neg h0]
    obtain ⟨hp, hd, hne⟩ := natDigitsAux_spec n (Nat.pos_of_ne_zero h0)
    exact ⟨hne, hd, hp⟩

theorem parseDigits_cons_zero (cs : List Char) :
    parseDigits ('0' :: cs) = parseDigits cs := by
  have h : digitVal '0' = 0 := by decide
  simp [parseDigits, h]

theorem parseDigits_replicate_zero (k : Nat) (cs : List Char) :
    parseDigits (List.replicate k '0' ++ cs) = parseDigits cs := by
  induction k with
  | zero => simp
  | succ j ih =>
    rw [List.replicate_succ, List.cons_append, parseDigits_cons_zero, ih]

theorem pyInt?_mk_of_digits {l : List Char} (h1 : l ≠ [])
    (h2 : ∀ c ∈ l, c.isDigit) :
    pyInt? (String.mk l) = some (parseDigits l) := by
  unfold pyInt?
  cases l with
  | nil => cases h1 rfl
  | cons c cs =>
    simp only
    rw [if_pos (List.all_eq_true.mpr h2)]

/-- The identifier produced by `register_employee` reads back as the
number it encodes: `int(str(n).rjust(4, "0")) = n`. -/
theorem pyInt?_rjust4_pyStr (n : Nat) : pyInt? (rjust4 (pyStr n)) = some n := by
  obtain ⟨h1, h2, h3⟩ := pyStr_spec n
  unfold rjust4
  rw [pyInt?_mk_of_digits]
  · rw [parseDigits_replicate_zero, h3]
  · intro hnil
    rcases List.append_eq_nil.mp hnil with ⟨_, h⟩
    exact h1 h
  · intro c hc
    rcases List.mem_append.mp hc with h | h
    · rw [List.eq_of_mem_replicate h]; decide
    · exact h2 c h

/-! ## Reachable states and the registry invariant -/

/-- Reduction of `register_employee` when the last identifier parses. -/
theorem register_employee_eq {st : LedgerState} {name : String}
    {last : Employee} {n : Nat}
    (hlast : st.employees.getLast? = some last) (hn : pyInt? last.id = some n) :
    ∃ msg, register_employee st name =
      some ({st with employees :=
        st.employees ++ [⟨rjust4 (pyStr (n + 1)), name, 20⟩]}, msg) := by
  unfold register_employee
  rw [hlast]
  simp only [hn]
  exact ⟨_, rfl⟩

/-- Every mutating operation preserves the registry invariant, and the
seed data satisfies it. -/
theorem reachable_registry_inv {st : LedgerState} (h : Reachable st) :
    RegistryInv st := by
  induction h with
  | seed =>
    refine ⟨[1, 2, 3, 4], by decide, by decide, ?_⟩
    norm_num [List.chain'_cons, List.chain'_singleton]
  | @register st st2 name msg hre hr ih =>
    obtain ⟨ns, hne, hmap, hchain⟩ := ih
    have hemp : st.employees ≠ [] := by
      intro h0
      rw [h0] at hmap
      exact hne (by simpa using hmap.symm)
    obtain ⟨last, hlast⟩ := Option.isSome_iff_exists.mp
      (List.getLast?_isSome.mpr hemp)
    have hnsne : ns ≠ [] := hne
    have hlastval : pyInt? last.id = some (ns.getLast hnsne) := by
      have h1 : (st.employees.map (fun e => pyInt? e.id)).getLast? =
          (ns.map some).getLast? := by rw [hmap]
      rw [List.getLast?_map, List.getLast?_map, hlast,
        List.getLast?_eq_getLast_of_ne_nil hnsne] at h1
      simpa using h1
    obtain ⟨msg2, hreg⟩ := @register_employee_eq st name last _ hlast hlastval
    rw [hreg] at hr
    have hst2 : st2 = {st with employees := st.employees ++
        [⟨rjust4 (pyStr (ns.getLast hnsne + 1)), name, 20⟩]} :=
      (congrArg Prod.fst (Option.some.inj hr)).symm
    subst hst2
    refine ⟨ns ++ [ns.getLast hnsne + 1], by simp, ?_, ?_⟩
    · simp only [List.map_append, hmap, List.map_cons, List.map_nil]
      rw [pyInt?_rjust4_pyStr]
    · rw [List.chain'_append]
      refine ⟨hchain, List.chain'_singleton _, ?_⟩
      intro x hx y hy
      rw [List.getLast?_eq_getLast_of_ne_nil hnsne] at hx
      simp at hx hy
      omega
  | @applyLeave st env employee_id leave_dates purpose hre ih =>
    obtain ⟨ns, hne, hmap, hchain⟩ := ih
    refine ⟨ns, hne, ?_, hchain⟩
    rcases apply_for_leave_cases env st employee_id leave_dates purpose with
      hid | ⟨idx, employee, hmatch, -, -, heq⟩
    · rw [hid]; exact hmap
    · obtain ⟨-, hget⟩ := matches_head_spec hmatch
      obtain ⟨hlt, hgete⟩ := List.getElem?_eq_some.mp hget
      rw [heq]
      simp only [List.map_set]
      have hsame : (pyInt? employee.id) =
          (st.employees.map (fun e => pyInt? e.id)).get
            ⟨idx, by simpa using hlt⟩ := by
        simp [hgete]
      rw [hsame, set_get_self, hmap]
  | @cancel st st2 env employee_id leave_dates msg hre hc ih =>
    obtain ⟨ns, hne, hmap, hchain⟩ := ih
    exact ⟨ns, hne, by rw [cancel_employees_unchanged hc]; exact hmap, hchain⟩

/-- In reachable states no two employees share an identifier. -/
theorem reachable_ids_nodup {st : LedgerState} (h : Reachable st) :
    (st.employees.map Employee.id).Nodup := by
  obtain ⟨ns, hne, hmap, hchain⟩ := reachable_registry_inv h
  have hnsnd : ns.Nodup :=
    List.Pairwise.imp (fun h => Nat.ne_of_lt h)
      ((List.chain'_iff_pairwise).mp hchain)
  have h1 : (ns.map some).Nodup :=
    hnsnd.map (fun a b hab => Option.some.inj hab)
  rw [← hmap] at h1
  have h2 : st.employees.map (fun e => pyInt? e.id) =
      (st.employees.map Employee.id).map pyInt? := by
    rw [List.map_map]
    rfl
  rw [h2] at h1
  exact List.Nodup.of_map pyInt? h1

/-! ## Counting lemmas and further helpers -/

theorem countFor_append (l1 l2 : List LeaveRecord) (x : String) :
    countFor (l1 ++ l2) x = countFor l1 x + countFor l2 x := by
  unfold countFor
  rw [List.filter_append, List.length_append]
  push_cast
  ring

theorem countFor_new (eid0 p : String) (g : String → String)
    (dates : List String) (x : String) :
    countFor (dates.map (fun d => ⟨eid0, p, g d⟩)) x =
      if eid0 = x then (dates.length : Int) else 0 := by
  unfold countFor
  rw [List.filter_map]
  by_cases h : eid0 = x
  · subst h
    have : (fun h : LeaveRecord => decide (h.employee_id = eid0)) ∘
        (fun d => (⟨eid0, p, g d⟩ : LeaveRecord)) = fun _ => true := by
      funext d; simp
    rw [this]
    simp
  · have : (fun hrec : LeaveRecord => decide (hrec.employee_id = x)) ∘
        (fun d => (⟨eid0, p, g d⟩ : LeaveRecord)) = fun _ => false := by
      funext d; simp [h]
    rw [this]
    simp [h]

/-- The maximum of a strictly increasing list of naturals is its last
element. -/
theorem foldr_max_of_chain_lt : ∀ (ns : List Nat) (hne : ns ≠ []),
    List.Chain' (· < ·) ns → ns.foldr max 0 = ns.getLast hne := by
  intro ns
  induction ns with
  | nil => intro h; cases h rfl
  | cons a t ih =>
    intro _ hchain
    cases t with
    | nil => simp [List.getLast]
    | cons b t2 =>
      have hchain2 : List.Chain' (· < ·) (b :: t2) :=
        (List.chain'_cons.mp hchain).2
      have hrec := ih (by simp) hchain2
      have hlt : a < (b :: t2).getLast (by simp) := by
        have hp := (List.chain'_iff_pairwise).mp hchain
        exact List.rel_of_pairwise_cons hp (List.getLast_mem _)
      rw [List.foldr_cons, hrec, List.getLast_cons_cons]
      omega

/-- The purpose actually stored by `apply_for_leave` is always in the
closed set up to the casing of a recognized purpose. -/
theorem normalizePurpose_ok (p : String) : purposeOk (normalizePurpose p) := by
  unfold normalizePurpose purposeOk
  split
  · exact Or.inl (by assumption)
  · exact Or.inr rfl

/-! ## The claims -/

/-- C9: for every input text, `is_valid_leave_date` returns `false`
(and does not raise) when the text cannot be parsed, and otherwise
returns `true` iff the parsed date is strictly after today at
whole-day granularity — the whole-day difference must be positive, so
a parsed moment less than one full day ahead of now is not future. -/
theorem is_valid_leave_date_spec (env : DateEnv) (s : String) :
    (env.parse s = none → is_valid_leave_date env s = false) ∧
    (∀ t, env.parse s = some t →
      (is_valid_leave_date env s = true ↔ 0 < timedeltaDays (t - env.now))) ∧
    (∀ t, env.parse s = some t → t - env.now < 86400 →
      is_valid_leave_date env s = false) := by
  refine ⟨?_, ?_, ?_⟩
  · intro h; simp [is_valid_leave_date, h]
  · intro t h; simp [is_valid_leave_date, h]
  · intro t h hlt
    have hnot : ¬(0 < timedeltaDays (t - env.now)) := by
      rw [timedeltaDays_pos_iff]; omega
    simp [is_valid_leave_date, h, hnot]

theorem is_valid_leave_date_spec_witness :
    is_valid_leave_date demoEnv "not a date at all" = false ∧
    (is_valid_leave_date demoEnv "2099-01-01" = true ↔
      0 < timedeltaDays (864000 - demoEnv.now)) :=
  ⟨(is_valid_leave_date_spec demoEnv "not a date at all").1 (by decide),
   (is_valid_leave_date_spec demoEnv "2099-01-01").2.1 864000 (by decide)⟩

/-- C1: a successful `apply_for_leave` by an existing employee with N
dates that all pass `is_valid_leave_date`, N within the balance:
exactly N records are appended to the log in the order the dates were
given — each carrying the (possibly coerced) purpose and its date
re-normalized by `format_date` — the balance drops by exactly N, and
the result text reports the new balance. -/
theorem apply_success_effects {env : DateEnv} {st : LedgerState}
    {employee_id : String} {leave_dates : List String} {purpose : String}
    {idx : Nat} {employee : Employee}
    (hvalid : ∀ d ∈ leave_dates, is_valid_leave_date env d = true)
    (hmatch : (st.employees.enum.filter
        (fun p => decide (p.2.id = employee_id))).head? = some (idx, employee))
    (hbal : (leave_dates.length : Int) ≤ employee.balance) :
    (apply_for_leave env st employee_id leave_dates purpose).1.leave_histories
        = st.leave_histories ++ leave_dates.map
            (fun d => ⟨employee.id, normalizePurpose purpose, normDate env d⟩) ∧
    (apply_for_leave env st employee_id leave_dates purpose).1.employees
        = st.employees.set idx
            {employee with balance := employee.balance - leave_dates.length} ∧
    (apply_for_leave env st employee_id leave_dates purpose).2
        = applySuccessMsg leave_dates (employee.balance - leave_dates.length) := by
  rw [apply_for_leave_success hvalid hmatch hbal]
  exact ⟨rfl, rfl, rfl⟩

theorem apply_success_effects_witness :
    (apply_for_leave demoEnv seedState "0001"
        ["2099-01-01", "2099-01-02"] "Sick").1.leave_histories
      = seedState.leave_histories ++
        [⟨"0001", "Sick", "2099-01-01"⟩, ⟨"0001", "Sick", "2099-01-02"⟩] ∧
    (apply_for_leave demoEnv seedState "0001"
        ["2099-01-01", "2099-01-02"] "Sick").1.employees
      = seedState.employees.set 0 ⟨"0001", "Wale", 18⟩ ∧
    (apply_for_leave demoEnv seedState "0001"
        ["2099-01-01", "2099-01-02"] "Sick").2
      = applySuccessMsg ["2099-01-01", "2099-01-02"] 18 := by
  have h := @apply_success_effects demoEnv seedState "0001"
    ["2099-01-01", "2099-01-02"] "Sick" 0 ⟨"0001", "Wale", 20⟩
    (by decide) (by decide) (by decide)
  refine ⟨?_, ?_, ?_⟩
  · rw [h.1]; decide
  · rw [h.2.1]; decide
  · rw [h.2.2]; decide

/-- C4: requesting more valid future dates than the current balance
rejects the entire batch, even when the excess is one day: the state
is untouched (no record appended, no balance change) and the result
text reports the current balance. -/
theorem apply_insufficient_rejects_batch {env : DateEnv} {st : LedgerState}
    {employee_id : String} {leave_dates : List String} {purpose : String}
    {idx : Nat} {employee : Employee}
    (hvalid : ∀ d ∈ leave_dates, is_valid_leave_date env d = true)
    (hmatch : (st.employees.enum.filter
        (fun p => decide (p.2.id = employee_id))).head? = some (idx, employee))
    (hbal : (leave_dates.length : Int) > employee.balance) :
    (apply_for_leave env st employee_id leave_dates purpose).1 = st ∧
    (apply_for_leave env st employee_id leave_dates purpose).2 =
      insufficientMsg employee.balance := by
  rw [apply_for_leave_insufficient hvalid hmatch hbal]
  exact ⟨rfl, rfl⟩

theorem apply_insufficient_rejects_batch_witness :
    (apply_for_leave demoEnv lowState "0001"
        ["2099-01-01", "2099-01-02"] "sick").1 = lowState ∧
    (apply_for_leave demoEnv lowState "0001"
        ["2099-01-01", "2099-01-02"] "sick").2 = insufficientMsg 1 :=
  @apply_insufficient_rejects_batch demoEnv lowState "0001"
    ["2099-01-01", "2099-01-02"] "sick" 0 ⟨"0001", "Wale", 1⟩
    (by decide) (by decide) (by decide)

/-- C10: an `apply_for_leave` call with an empty date list for an
existing employee (with the non-negative balance every reachable
employee has) succeeds: no record is appended, the balance is
unchanged, and the result is the success message reporting the
(unchanged) balance.  The non-empty-input precondition is not enforced
at the public interface. -/
theorem apply_empty_dates_succeeds {env : DateEnv} {st : LedgerState}
    {employee_id : String} {purpose : String} {idx : Nat} {employee : Employee}
    (hmatch : (st.employees.enum.filter
        (fun p => decide (p.2.id = employee_id))).head? = some (idx, employee))
    (hbal : 0 ≤ employee.balance) :
    apply_for_leave env st employee_id [] purpose =
      (st, applySuccessMsg [] employee.balance) := by
  have h := @apply_for_leave_success env st employee_id [] purpose idx employee
    (by simp) hmatch (by simpa using hbal)
  rw [h]
  obtain ⟨-, hget⟩ := matches_head_spec hmatch
  obtain ⟨hidx, hgete⟩ := List.getElem?_eq_some.mp hget
  have he : employee = st.employees.get ⟨idx, hidx⟩ := by
    rw [List.get_eq_getElem, hgete]
  have hset : st.employees.set idx
      {employee with balance := employee.balance - (([] : List String).length : Int)}
        = st.employees := by
    calc st.employees.set idx
          {employee with balance := employee.balance - (([] : List String).length : Int)}
        = st.employees.set idx employee := by
          simp
      _ = st.employees.set idx (st.employees.get ⟨idx, hidx⟩) := by rw [← he]
      _ = st.employees := set_get_self _ idx hidx
  rw [hset]
  simp

theorem apply_empty_dates_succeeds_witness :
    apply_for_leave demoEnv seedState "0001" [] "sick" =
      (seedState, applySuccessMsg [] 20) :=
  @apply_empty_dates_succeeds demoEnv seedState "0001" "sick" 0
    ⟨"0001", "Wale", 20⟩ (by decide) (by decide)

/-- C7 counterexample: looking up the leave history of the
non-existent employee "0400" on the seed data evaluates
`found_employee[0]` on an empty list; the IndexError propagates to the
caller (modelled as `none`) instead of any descriptive NotFound
result, so the claim as stated is false. -/
theorem get_leave_histories_unknown_raises :
    get_leave_histories seedState "0400" = none := by
  decide

/-- C7 amended: for every state and identifier matching no employee,
`get_leave_histories` surfaces the raised IndexError (modelled as
`none`) rather than a descriptive NotFound result; the function reads
but never mutates the Registry or the Log. -/
theorem get_leave_histories_not_found {st : LedgerState} {employee_id : String}
    (h : st.employees.filter (fun e => decide (e.id = employee_id)) = []) :
    get_leave_histories st employee_id = none := by
  unfold get_leave_histories
  simp only [h]

theorem get_leave_histories_not_found_witness :
    get_leave_histories seedState "9999" = none :=
  get_leave_histories_not_found (by decide)

/-- C8 counterexample: applying with purpose "SICK" (recognized
case-insensitively) stores the record with the original casing
"SICK", which is outside the five-element set of `LeaveType` values,
so the claim that no stored purpose lies outside that set is false. -/
theorem apply_stores_noncanonical_purpose :
    ∃ r ∈ (apply_for_leave demoEnv seedState "0001"
        ["2099-01-01"] "SICK").1.leave_histories,
      r.purpose = "SICK" ∧ r.purpose ∉ leaveTypeValues := by
  decide

/-- C8 amended: the seed records and every record `apply_for_leave`
ever appends have a purpose that lower-cases into
{sick, vacation, maternity, paternity} (the original casing of a
recognized purpose is kept) or is exactly "others"; unrecognized
purposes are silently coerced to "others". -/
theorem apply_purpose_closed (env : DateEnv) (st : LedgerState)
    (employee_id : String) (leave_dates : List String) (purpose : String) :
    (∀ r ∈ seedHistories, purposeOk r.purpose) ∧
    ∀ r ∈ (apply_for_leave env st employee_id leave_dates purpose).1.leave_histories,
      r ∈ st.leave_histories ∨ purposeOk r.purpose := by
  refine ⟨by decide, ?_⟩
  intro r hr
  rcases apply_for_leave_cases env st employee_id leave_dates purpose with
    hid | ⟨idx, employee, -, -, -, heq⟩
  · rw [hid] at hr; exact Or.inl hr
  · rw [heq] at hr
    rcases List.mem_append.mp hr with h | h
    · exact Or.inl h
    · right
      obtain ⟨d, -, hd⟩ := List.mem_map.mp h
      rw [← hd]
      exact normalizePurpose_ok purpose

theorem apply_purpose_closed_witness :
    (⟨"0001", "SICK", "2099-01-01"⟩ : LeaveRecord) ∈
        (apply_for_leave demoEnv seedState "0001"
          ["2099-01-01"] "SICK").1.leave_histories ∧
    ((⟨"0001", "SICK", "2099-01-01"⟩ : LeaveRecord) ∈ seedState.leave_histories ∨
      purposeOk "SICK") :=
  ⟨by decide,
   (apply_purpose_closed demoEnv seedState "0001" ["2099-01-01"] "SICK").2
     ⟨"0001", "SICK", "2099-01-01"⟩ (by decide)⟩

/-- C2 counterexample: the invariant
"balance = 20 − count(history records)" fails already in the seed
state, which is reachable by the empty sequence of operations:
employee "0001" has balance 20 but four seed history records
(20 ≠ 20 − 4), so the claimed invariant does not hold in every
reachable state. -/
theorem seed_balance_not_synced :
    Reachable seedState ∧ ¬BalanceSynced seedState :=
  ⟨Reachable.seed, by decide⟩

/-- C2 amended: `apply_for_leave` does keep the independently tracked
balance synchronized with the record count: for every reachable state
it preserves, employee by employee (identifiers included), the sum
balance + count(records of that employee).  The full equality
balance = 20 − count fails in the seed state itself, and
`cancel_leaves` (which deletes records without crediting balance) does
not preserve the sum either. -/
theorem apply_preserves_balance_sum (env : DateEnv) (st : LedgerState)
    (employee_id : String) (leave_dates : List String) (purpose : String)
    (h : Reachable st) :
    (apply_for_leave env st employee_id leave_dates purpose).1.employees.map
        Employee.id
      = st.employees.map Employee.id ∧
    (apply_for_leave env st employee_id leave_dates purpose).1.employees.map
        (fun e => e.balance +
          historyCount (apply_for_leave env st employee_id leave_dates purpose).1 e.id)
      = st.employees.map (fun e => e.balance + historyCount st e.id) := by
  rcases apply_for_leave_cases env st employee_id leave_dates purpose with
    hid | ⟨idx, employee, hmatch, -, -, heq⟩
  · rw [hid]; exact ⟨rfl, rfl⟩
  · have hnd := reachable_ids_nodup h
    obtain ⟨hid2, hget⟩ := matches_head_spec hmatch
    obtain ⟨hidx, hgete⟩ := List.getElem?_eq_some.mp hget
    rw [heq]
    have hcount : ∀ x : String,
        historyCount
          (⟨st.employees.set idx
              {employee with balance := employee.balance - leave_dates.length},
            st.leave_histories ++ leave_dates.map
              (fun d => ⟨employee.id, normalizePurpose purpose, normDate env d⟩)⟩ :
            LedgerState) x
          = historyCount st x +
            (if employee.id = x then (leave_dates.length : Int) else 0) := by
      intro x
      unfold historyCount
      dsimp only
      rw [countFor_append, countFor_new]
    constructor
    · calc (st.employees.set idx
            {employee with balance := employee.balance - leave_dates.length}).map
              Employee.id
          = (st.employees.map Employee.id).set idx employee.id := by
            rw [List.map_set]
        _ = (st.employees.map Employee.id).set idx
              ((st.employees.map Employee.id).get ⟨idx, by simpa using hidx⟩) := by
            congr 1
            simp [hgete]
        _ = st.employees.map Employee.id := set_get_self _ idx (by simpa using hidx)
    · apply List.ext_getElem
      · simp
      intro i h1 h2
      simp only [List.getElem_map, List.getElem_set, hcount]
      by_cases hie : idx = i
      · subst hie
        rw [if_pos rfl]
        have hsame : st.employees[idx] = employee := hgete
        dsimp only
        rw [hsame, if_pos rfl]
        ring
      · rw [if_neg hie]
        have hi2 : i < st.employees.length := by simpa using h2
        have hmaplt : idx < (st.employees.map Employee.id).length := by
          simpa using hidx
        have hmaplt2 : i < (st.employees.map Employee.id).length := by
          simpa using hi2
        have hne2 : ¬(employee.id = st.employees[i].id) := by
          intro hcontra
          apply hie
          have hmi : (st.employees.map Employee.id)[idx] =
              (st.employees.map Employee.id)[i] := by
            simp only [List.getElem_map]
            rw [hgete, ← hcontra]
          exact (List.Nodup.getElem_inj_iff hnd).mp hmi
        rw [if_neg hne2]
        ring

theorem apply_preserves_balance_sum_witness :
    (apply_for_leave demoEnv seedState "0001"
        ["2099-01-01"] "sick").1.employees.map Employee.id
      = seedState.employees.map Employee.id ∧
    (apply_for_leave demoEnv seedState "0001"
        ["2099-01-01"] "sick").1.employees.map
        (fun e => e.balance +
          historyCount (apply_for_leave demoEnv seedState "0001"
            ["2099-01-01"] "sick").1 e.id)
      = seedState.employees.map (fun e => e.balance + historyCount seedState e.id) :=
  apply_preserves_balance_sum demoEnv seedState "0001" ["2099-01-01"] "sick"
    Reachable.seed

/-- C6: in every reachable state (where the registry is non-empty and
numerically increasing) `register_employee` never fails, appends one
employee whose identifier — read back as a decimal number through the
4-digit zero padding — is exactly one more than the numerically
largest identifier already present, and whose starting balance is the
entitlement 20. -/
theorem register_allocates_next_id (st : LedgerState) (name : String)
    (h : Reachable st) :
    ∃ st2 msg new_employee,
      register_employee st name = some (st2, msg) ∧
      st2.employees = st.employees ++ [new_employee] ∧
      pyInt? new_employee.id = some (maxIdNum st + 1) ∧
      new_employee.balance = 20 := by
  obtain ⟨ns, hne, hmap, hchain⟩ := reachable_registry_inv h
  have hemp : st.employees ≠ [] := by
    intro h0
    rw [h0] at hmap
    exact hne (by simpa using hmap.symm)
  obtain ⟨last, hlast⟩ := Option.isSome_iff_exists.mp
    (List.getLast?_isSome.mpr hemp)
  have hlastval : pyInt? last.id = some (ns.getLast hne) := by
    have h1 : (st.employees.map (fun e => pyInt? e.id)).getLast? =
        (ns.map some).getLast? := by rw [hmap]
    rw [List.getLast?_map, List.getLast?_map, hlast,
      List.getLast?_eq_getLast_of_ne_nil hne] at h1
    simpa using h1
  obtain ⟨msg2, hreg⟩ := @register_employee_eq st name last _ hlast hlastval
  have hmax : maxIdNum st = ns.getLast hne := by
    unfold maxIdNum
    have hids : st.employees.map idNum = ns := by
      have h3 : st.employees.map idNum =
          (st.employees.map (fun e => pyInt? e.id)).map (fun o => o.getD 0) := by
        rw [List.map_map]
        rfl
      rw [h3, hmap, List.map_map]
      have hco : ((fun o : Option Nat => o.getD 0) ∘ some) = id := by
        funext a; rfl
      rw [hco, List.map_id]
    rw [hids, foldr_max_of_chain_lt ns hne hchain]
  refine ⟨_, msg2, ⟨rjust4 (pyStr (ns.getLast hne + 1)), name, 20⟩, hreg, rfl,
    ?_, rfl⟩
  rw [hmax]
  exact pyInt?_rjust4_pyStr _

theorem register_allocates_next_id_witness :
    ∃ st2 msg new_employee,
      register_employee seedState "Bolatito" = some (st2, msg) ∧
      st2.employees = seedState.employees ++ [new_employee] ∧
      pyInt? new_employee.id = some (maxIdNum seedState + 1) ∧
      new_employee.balance = 20 :=
  register_allocates_next_id seedState "Bolatito" Reachable.seed

/-- C3 counterexample: `cancel_leaves` does not report invalid dates
as a crafted batch message.  An unparseable date ("gibberish")
propagates the raw `ValueError` raised by `format_date`
(modelled as `none`), and when two parseable past dates are supplied
the crafted message names only the first one ("2020-01-01"),
not all offending dates — so the claim is false for cancellation. -/
theorem cancel_invalid_reporting_cex :
    cancel_leaves demoEnv seedState "0001" ["gibberish"] = none ∧
    cancel_leaves demoEnv seedState "0001" ["2020-01-01", "2020-01-02"] =
      some (seedState, cancelInvalidMsg "2020-01-01") := by
  constructor
  · decide
  · decide

/-- C3 amended: an `apply_for_leave` call with one or more invalid
dates mutates nothing and reports all offending dates together; a
`cancel_leaves` call with an unparseable date propagates the raw parse
fault before any mutation, and one whose dates all parse but include a
non-future date mutates nothing and reports only the first offending
original date. -/
theorem invalid_date_reporting (env : DateEnv) (st : LedgerState)
    (employee_id : String) (leave_dates : List String) (purpose : String) :
    (leave_dates.filter (fun dt => !is_valid_leave_date env dt) ≠ [] →
      apply_for_leave env st employee_id leave_dates purpose =
        (st, invalidDatesMsg
          (leave_dates.filter (fun dt => !is_valid_leave_date env dt)))) ∧
    (leave_dates.mapM (format_date env) = none →
      cancel_leaves env st employee_id leave_dates = none) ∧
    (∀ formatted, leave_dates.mapM (format_date env) = some formatted →
      false ∈ formatted.map (is_valid_leave_date env) →
      cancel_leaves env st employee_id leave_dates =
        some (st, cancelInvalidMsg (leave_dates.getD
          ((formatted.map (is_valid_leave_date env)).findIdx (fun b => !b)) ""))) :=
  ⟨fun h => apply_for_leave_invalid h,
   fun h => cancel_leaves_parse_fault h,
   fun _ h1 h2 => cancel_leaves_first_invalid h1 h2⟩

theorem invalid_date_reporting_witness :
    apply_for_leave demoEnv seedState "0001" ["2020-01-01", "junk"] "sick" =
      (seedState, invalidDatesMsg
        (["2020-01-01", "junk"].filter
          (fun dt => !is_valid_leave_date demoEnv dt))) ∧
    cancel_leaves demoEnv seedState "0001" ["junk"] = none ∧
    cancel_leaves demoEnv seedState "0001" ["2020-01-02"] =
      some (seedState, cancelInvalidMsg (["2020-01-02"].getD
        (((["2020-01-02"].map (normDate demoEnv)).map
          (is_valid_leave_date demoEnv)).findIdx (fun b => !b)) "")) :=
  ⟨(invalid_date_reporting demoEnv seedState "0001" ["2020-01-01", "junk"]
      "sick").1 (by decide),
   (invalid_date_reporting demoEnv seedState "0001" ["junk"] "sick").2.1
     (by decide),
   (invalid_date_reporting demoEnv seedState "0001" ["2020-01-02"] "sick").2.2
     (["2020-01-02"].map (normDate demoEnv)) (by decide) (by decide)⟩

/-- `cancel_leaves` when every date parses and every normalized date
is a future date: either no record matches (state untouched) or
exactly the matching records are removed (and balance untouched). -/
theorem cancel_leaves_valid {env : DateEnv} {st : LedgerState}
    {employee_id : String} {leave_dates : List String}
    (hparse : ∀ d ∈ leave_dates, (env.parse d).isSome)
    (hval : false ∉ (leave_dates.map (normDate env)).map (is_valid_leave_date env)) :
    (st.leave_histories.filter
        (fun h => decide (h.employee_id = pyLower employee_id ∧
          h.leave_date ∈ leave_dates.map (normDate env))) = [] →
      cancel_leaves env st employee_id leave_dates = some (st, noLeaveMsg)) ∧
    (st.leave_histories.filter
        (fun h => decide (h.employee_id = pyLower employee_id ∧
          h.leave_date ∈ leave_dates.map (normDate env))) ≠ [] →
      cancel_leaves env st employee_id leave_dates =
        some ({st with leave_histories := (st.leave_histories.filter
          (fun h => !decide (h.employee_id = pyLower employee_id ∧
            h.leave_date ∈ leave_dates.map (normDate env))))}, cancelSuccessMsg)) := by
  unfold cancel_leaves
  rw [mapM_format_of_parse hparse]
  dsimp only
  constructor
  · intro hnil
    rw [if_neg hval, hnil]
    rfl
  · intro hnonnil
    have hlen : ¬((st.leave_histories.filter
        (fun h => decide (h.employee_id = pyLower employee_id ∧
          h.leave_date ∈ leave_dates.map (normDate env)))).length = 0) := by
      intro hl
      exact hnonnil (List.length_eq_zero.mp hl)
    have hrem := pyRemoveEach_filter
      (fun h => decide (h.employee_id = pyLower employee_id ∧
        h.leave_date ∈ leave_dates.map (normDate env))) st.leave_histories
    rw [if_neg hval, if_neg hlen, hrem]

/-- C5 counterexample: for the state with employee "0001" at balance 0
and one pre-existing future record, applying for that same future date
is rejected (insufficient balance, no mutation) — and then cancelling
it removes the PRE-EXISTING record: across the apply/cancel pair the
log shrinks from 1 record to 0 (not "unchanged"), while the balance
stays 0 instead of remaining decremented by 1.  The dates all pass
`is_valid_leave_date`, so the claim as universally stated is false. -/
theorem apply_then_cancel_shrinks_log :
    is_valid_leave_date demoEnv "2099-01-01" = true ∧
    cancel_leaves demoEnv
        (apply_for_leave demoEnv cState "0001" ["2099-01-01"] "sick").1
        "0001" ["2099-01-01"]
      = some (⟨[⟨"0001", "Wale", 0⟩], []⟩, cancelSuccessMsg) ∧
    cState.leave_histories.length = 1 := by
  refine ⟨by decide, by decide, by decide⟩

/-- C5 amended: when the application actually succeeds (existing
employee, sufficient balance, identifier fixed by lower-casing), the
dates stay future-valid after normalization, and no pre-existing
record of that employee carries one of the normalized dates, then
applying and cancelling the same dates restores the log exactly to its
previous state (in particular its size), while the balance remains
decremented by the number of dates — cancellation never credits
balance back. -/
theorem apply_then_cancel_roundtrip {env : DateEnv} {st : LedgerState}
    {employee_id : String} {leave_dates : List String} {purpose : String}
    {idx : Nat} {employee : Employee}
    (hlow : pyLower employee_id = employee_id)
    (hmatch : (st.employees.enum.filter
        (fun p => decide (p.2.id = employee_id))).head? = some (idx, employee))
    (hbal : (leave_dates.length : Int) ≤ employee.balance)
    (hvalid : ∀ d ∈ leave_dates, is_valid_leave_date env d = true)
    (hvalid2 : ∀ d ∈ leave_dates, is_valid_leave_date env (normDate env d) = true)
    (hfresh : ∀ r ∈ st.leave_histories, r.employee_id = employee_id →
      ∀ d ∈ leave_dates, r.leave_date ≠ normDate env d) :
    ∃ msg,
      cancel_leaves env (apply_for_leave env st employee_id leave_dates purpose).1
          employee_id leave_dates =
        some (⟨st.employees.set idx
            {employee with balance := employee.balance - leave_dates.length},
          st.leave_histories⟩, msg) := by
  have hid2 := (matches_head_spec hmatch).1
  have hparse : ∀ d ∈ leave_dates, (env.parse d).isSome := by
    intro d hd
    obtain ⟨t, ht, -⟩ := is_valid_parse_some (hvalid d hd)
    simp [ht]
  have hval : false ∉
      (leave_dates.map (normDate env)).map (is_valid_leave_date env) := by
    intro hf
    obtain ⟨x, hx, hxe⟩ := List.mem_map.mp hf
    obtain ⟨d, hd, hde⟩ := List.mem_map.mp hx
    rw [← hde] at hxe
    rw [hvalid2 d hd] at hxe
    cases hxe
  rw [apply_for_leave_success hvalid hmatch hbal]
  have hprednew : ∀ r ∈ leave_dates.map
      (fun d => (⟨employee.id, normalizePurpose purpose, normDate env d⟩ :
        LeaveRecord)),
      (decide (r.employee_id = pyLower employee_id ∧
        r.leave_date ∈ leave_dates.map (normDate env))) = true := by
    intro r hr
    obtain ⟨d, hd, hde⟩ := List.mem_map.mp hr
    subst hde
    simp only [decide_eq_true_eq]
    exact ⟨by rw [hlow, hid2], List.mem_map_of_mem _ hd⟩
  have hpredold : ∀ r ∈ st.leave_histories,
      ¬((decide (r.employee_id = pyLower employee_id ∧
        r.leave_date ∈ leave_dates.map (normDate env))) = true) := by
    intro r hr hcontra
    simp only [decide_eq_true_eq] at hcontra
    obtain ⟨hemp, hmem⟩ := hcontra
    obtain ⟨d, hd, hde⟩ := List.mem_map.mp hmem
    exact hfresh r hr (by rw [← hlow, hemp]) d hd hde.symm
  rcases eq_or_ne leave_dates [] with hemp2 | hemp2
  · subst hemp2
    have hc := (@cancel_leaves_valid env
      ⟨st.employees.set idx
          {employee with balance := employee.balance - ([] : List String).length},
        st.leave_histories ++ ([] : List String).map
          (fun d => ⟨employee.id, normalizePurpose purpose, normDate env d⟩)⟩
      employee_id [] hparse hval).1
      (by simp)
    rw [hc]
    exact ⟨noLeaveMsg, by rw [List.map_nil, List.append_nil]⟩
  · have hc := (@cancel_leaves_valid env
      ⟨st.employees.set idx
          {employee with balance := employee.balance - leave_dates.length},
        st.leave_histories ++ leave_dates.map
          (fun d => ⟨employee.id, normalizePurpose purpose, normDate env d⟩)⟩
      employee_id leave_dates hparse hval).2
      (by
        dsimp only
        rw [List.filter_append]
        intro hcontra
        rcases List.append_eq_nil.mp hcontra with ⟨-, hnew⟩
        rw [List.filter_eq_self.mpr hprednew] at hnew
        exact hemp2 (by simpa using hnew))
    rw [hc]
    refine ⟨cancelSuccessMsg, ?_⟩
    have hfilter : (st.leave_histories ++ leave_dates.map
        (fun d => (⟨employee.id, normalizePurpose purpose, normDate env d⟩ :
          LeaveRecord))).filter
          (fun h => !decide (h.employee_id = pyLower employee_id ∧
            h.leave_date ∈ leave_dates.map (normDate env)))
        = st.leave_histories := by
      rw [List.filter_append]
      have h1 : st.leave_histories.filter
          (fun h => !decide (h.employee_id = pyLower employee_id ∧
            h.leave_date ∈ leave_dates.map (normDate env)))
          = st.leave_histories :=
        List.filter_eq_self.mpr (fun r hr => by
          cases hb : decide (r.employee_id = pyLower employee_id ∧
              r.leave_date ∈ leave_dates.map (normDate env)) with
          | false => simp [hb]
          | true => exact absurd hb (hpredold r hr))
      have h2 : (leave_dates.map
          (fun d => (⟨employee.id, normalizePurpose purpose, normDate env d⟩ :
            LeaveRecord))).filter
          (fun h => !decide (h.employee_id = pyLower employee_id ∧
            h.leave_date ∈ leave_dates.map (normDate env)))
          = [] :=
        List.filter_eq_nil_iff.mpr (fun r hr => by
          rw [hprednew r hr]
          decide)
      rw [h1, h2, List.append_nil]
    rw [hfilter]

theorem apply_then_cancel_roundtrip_witness :
    ∃ msg,
      cancel_leaves demoEnv
          (apply_for_leave demoEnv seedState "0001" ["2099-01-01"] "sick").1
          "0001" ["2099-01-01"] =
        some (⟨seedState.employees.set 0 ⟨"0001", "Wale", 19⟩,
          seedState.leave_histories⟩, msg) := by
  obtain ⟨msg, hm⟩ := @apply_then_cancel_roundtrip demoEnv seedState "0001"
    ["2099-01-01"] "sick" 0 ⟨"0001", "Wale", 20⟩
    (by decide) (by decide) (by decide) (by decide) (by decide) (by decide)
  exact ⟨msg, by rw [hm]; rfl⟩

end LeaveMgmt
